import Mathlib

/-!
A shallow embedding of the branching-conversation core of the `rust-gpt`
repository (`src/conversations.rs`), together with proofs of the spec claims.

Modelling conventions:
* `Uuid` values are modelled as natural numbers; `Uuid::new_v4()` is assumed
  to yield globally fresh identifiers, modelled by handing each operation the
  successor of the largest identifier in the tree (`Conversation.freshId`).
* `HashMap<Uuid, Message>` is modelled as a `List Message` whose entries are
  keyed by their own `id` field (the code only ever inserts `(msg.id, msg)`),
  with `extend` on fresh keys modelled as list append.  The unspecified
  iteration order of the hash map is modelled by the list order; no claim
  depends on that order over and above what the code guarantees by sorting.
* The `u8` sibling index is modelled as a `Nat` with the wrap-around of
  `sibling.index + 1` made explicit as `% 256`.
* Loops without a structural bound (walking parent links, descending into
  children, the depth-first iterator) take explicit fuel and return `none`
  when the fuel runs out or the code would panic; `none` thus models a
  non-returning (panicking or diverging) execution.
* The completion provider is an explicit function argument producing either
  a transport error or a list of optional choice contents, mirroring
  `client.chat().create(..)` and `choice.message.content`.
-/

/-- Message roles, as used by the repository (`async_openai::types::Role`). -/
inductive Role where
  | System
  | User
  | Assistant
deriving DecidableEq, Repr

/-- The error conditions raised by the conversation core
(`RustGPTError` variants referenced from `src/conversations.rs`). -/
inductive RustGPTError where
  | BadMessage (reason : String)
  | MessageNotPartOfConversation
  | InvalidMessageRole
  | ClientError
  | Serialization
deriving DecidableEq, Repr

deriving instance DecidableEq for Except

/-- Completion models (`CompletionModel`). -/
inductive CompletionModel where
  | GPT35
  | GPT35_16K
  | GPT4
  | GPT4_32K
deriving DecidableEq, Repr

/-- Completion parameters (`CompletionParameters`).  The `f32` temperature is
modelled as a rational number; no claim depends on float rounding. -/
structure CompletionParameters where
  temperature : Rat
  n : Nat
  model : CompletionModel
  max_tokens : Nat
deriving DecidableEq, Repr

/-- `CompletionParameters::with_n`: copy with the sample count replaced. -/
def CompletionParameters.with_n (p : CompletionParameters) (n : Nat) : CompletionParameters :=
  { p with n := n }

/-- A single message node (`Message`). -/
structure Message where
  id : Nat
  parent_id : Option Nat
  index : Nat
  role : Role
  content : String
deriving DecidableEq, Repr

/-- `Message::build`: validates content and the parent/role rule, then
computes the sibling index; `sibling.index + 1` is `u8` addition, hence the
explicit `% 256`.  The fresh `Uuid` is passed in as `id`. -/
def Message.build (role : Role) (content : String) (parent_id : Option Nat)
    (sibling : Option Message) (id : Nat) : Except RustGPTError Message :=
  if content = "" then
    .error (RustGPTError.BadMessage "Message must have a content")
  else if parent_id = none ∧ role ≠ Role.System then
    .error (RustGPTError.BadMessage "Parent can only be None when the role is System")
  else
    let index := match sibling with
      | none => 1
      | some s => (s.index + 1) % 256
    .ok { id := id, parent_id := parent_id, index := index, role := role, content := content }

/-- A conversation (`Conversation`): default parameters, the message table,
a display name and the storage path. -/
structure Conversation where
  default_parameters : CompletionParameters
  interactions : List Message
  name : String
  path : String
deriving DecidableEq, Repr

/-- Successor of the largest id in the tree: the model of a fresh `Uuid`. -/
def Conversation.freshId (c : Conversation) : Nat :=
  (c.interactions.map (fun m => m.id)).foldr max 0 + 1

/-- `self.interactions.get(&id)` on the id-keyed map. -/
def Conversation.findMsg (c : Conversation) (id : Nat) : Option Message :=
  c.interactions.find? (fun m => m.id == id)

/-- Stable insertion into a list sorted by sibling index: the new element
goes before the first strictly larger index, after equal ones. -/
def orderedInsertIdx (a : Message) : List Message → List Message
  | [] => [a]
  | b :: l => if a.index ≤ b.index then a :: b :: l else b :: orderedInsertIdx a l

/-- Stable sort by sibling index, the model of `Vec::sort_by_key`. -/
def sortByIndex : List Message → List Message
  | [] => []
  | a :: l => orderedInsertIdx a (sortByIndex l)

/-- `Conversation::get_children`: all messages whose parent is the given id,
sorted by sibling index (`sort_by_key`, a stable sort). -/
def Conversation.get_children (c : Conversation) (parent_message_id : Nat) : List Message :=
  sortByIndex (c.interactions.filter (fun m => m.parent_id == some parent_message_id))

/-- `Conversation::get_latest_messages`: the messages that are not the parent
of any other message. -/
def Conversation.get_latest_messages (c : Conversation) : List Message :=
  let parents := c.interactions.filterMap (fun m => m.parent_id)
  c.interactions.filter (fun m => !(parents.contains m.id))

/-- `Conversation::get_root_message` without the panic: the first message
with no parent, if any (the code calls `.expect` on this). -/
def Conversation.get_root_message? (c : Conversation) : Option Message :=
  c.interactions.find? (fun m => m.parent_id.isNone)

/-- The parent walk shared by `do_completion` (and, with the error collapsed
into a panic, by `get_message_list`): returns `[m, parent m, …, root]`.
`some (.error _)` is the dangling-parent failure, `none` is fuel exhaustion,
i.e. the unbounded `while let` loop never terminating. -/
def Conversation.walkUp (c : Conversation) (fuel : Nat) (m : Message) :
    Option (Except RustGPTError (List Message)) :=
  match m.parent_id with
  | none => some (.ok [m])
  | some pid =>
    match fuel with
    | 0 => none
    | fuel' + 1 =>
      match c.findMsg pid with
      | none => some (.error RustGPTError.MessageNotPartOfConversation)
      | some p => (c.walkUp fuel' p).map (fun e => e.map (fun l => m :: l))

/-- The parent walk of `get_message_list`, where a dangling parent is an
`unwrap` panic: only the successful chain is observable. -/
def Conversation.chainToRoot (c : Conversation) (fuel : Nat) (m : Message) : Option (List Message) :=
  match c.walkUp fuel m with
  | some (.ok l) => some l
  | _ => none

/-- The child-descent loop of `get_message_list`: repeatedly move to the
first (lowest-index) child until a leaf is reached.  `none` models the
unbounded `loop` failing to terminate. -/
def Conversation.descend (c : Conversation) (fuel : Nat) (id : Nat) : Option (List Message) :=
  match fuel with
  | 0 => none
  | fuel' + 1 =>
    match c.get_children id with
    | [] => some []
    | m :: _ => (c.descend fuel' m.id).map (fun l => m :: l)

/-- `Conversation::get_message_list`: resolve the anchor (`NotFound` when a
supplied anchor is absent), walk up to the root, reverse, then descend to a
leaf along first children.  The outer `Option` models panics/divergence. -/
def Conversation.get_message_list (c : Conversation) (anchor_message_id : Option Nat) :
    Option (Except RustGPTError (List Message)) :=
  match anchor_message_id with
  | some id =>
    match c.findMsg id with
    | none => some (.error RustGPTError.MessageNotPartOfConversation)
    | some msg =>
      (c.chainToRoot c.interactions.length msg).bind (fun l =>
        (c.descend c.interactions.length msg.id).map (fun d => .ok (l.reverse ++ d)))
  | none =>
    match c.get_root_message? with
    | none => none
    | some msg =>
      (c.chainToRoot c.interactions.length msg).bind (fun l =>
        (c.descend c.interactions.length msg.id).map (fun d => .ok (l.reverse ++ d)))

/-- The message-building loop of `Conversation::add_children_to_message`:
each message is built with the previously built one as its sibling, and the
whole batch fails on the first bad content, before anything is inserted. -/
def Message.buildMany (role : Role) (parent_id : Nat) :
    List String → Option Message → Nat → Except RustGPTError (List Message)
  | [], _, _ => .ok []
  | content :: rest, sibling, nextId =>
    match Message.build role content (some parent_id) sibling nextId with
    | .error e => .error e
    | .ok m =>
      match Message.buildMany role parent_id rest (some m) (nextId + 1) with
      | .error e => .error e
      | .ok ms => .ok (m :: ms)

/-- `Conversation::add_children_to_message`: seed the sibling from the last
existing child, build all messages, then extend the table (modelled as an
append of the freshly keyed batch).  On error the tree is untouched. -/
def Conversation.add_children_to_message (c : Conversation) (parent_id : Nat)
    (messages : List String) (role : Role) :
    Except RustGPTError (List Message) × Conversation :=
  let oldest_sibling := (c.get_children parent_id).getLast?
  match Message.buildMany role parent_id messages oldest_sibling c.freshId with
  | .error e => (.error e, c)
  | .ok msgs => (.ok msgs, { c with interactions := c.interactions ++ msgs })

/-- `Conversation::add_queries`: parent must exist and have role Assistant or
System; then the queries are inserted as User children. -/
def Conversation.add_queries (c : Conversation) (parent_id : Nat) (queries : List String) :
    Except RustGPTError (List Message) × Conversation :=
  match c.findMsg parent_id with
  | none => (.error RustGPTError.MessageNotPartOfConversation, c)
  | some parent_message =>
    if parent_message.role = Role.Assistant ∨ parent_message.role = Role.System then
      c.add_children_to_message parent_id queries Role.User
    else
      (.error RustGPTError.InvalidMessageRole, c)

/-- `Conversation::do_completion`: validate the target message and its role,
reconstruct the ancestor chain, invoke the provider with the root-to-leaf
chain and the effective parameters, drop choices without content, and insert
the remaining responses as Assistant children.  The provider stands for
`client.chat().create(request)`; `.error` on its result is the transport
failure (`RustGPTError::ClientError`). -/
def Conversation.do_completion (c : Conversation) (message_id : Nat)
    (provider : List Message → CompletionParameters → Except Unit (List (Option String)))
    (n_completions : Option Nat) :
    Option (Except RustGPTError (List Message) × Conversation) :=
  match c.findMsg message_id with
  | none => some (.error RustGPTError.MessageNotPartOfConversation, c)
  | some message =>
    if message.role = Role.User then
      match c.walkUp c.interactions.length message with
      | none => none
      | some (.error e) => some (.error e, c)
      | some (.ok chain) =>
        match provider chain.reverse
            (match n_completions with
              | some n => c.default_parameters.with_n n
              | none => c.default_parameters) with
        | .error _ => some (.error RustGPTError.ClientError, c)
        | .ok choices =>
          match c.add_children_to_message message_id (choices.filterMap id) Role.Assistant with
          | (.error e, _) => some (.error e, c)
          | (.ok msgs, c2) => some (.ok msgs, c2)
    else
      some (.error RustGPTError.InvalidMessageRole, c)

/-- `Conversation::build`: create the System root (id 1 is the fresh id of an
empty table) and the one-entry interaction table. -/
def Conversation.build (parameters : CompletionParameters) (path : String)
    (system_message : String) : Except RustGPTError Conversation :=
  match Message.build Role.System system_message none none 1 with
  | .error e => .error e
  | .ok m =>
    .ok { default_parameters := parameters, interactions := [m], name := "", path := path }

/-- `Conversation::load`, after the file read and the YAML parse: the parse
result (which serde checks only against the field schema, never against any
tree invariant) has its in-memory path rebound to the path that was read. -/
def Conversation.loadDecoded (parsed : Except RustGPTError Conversation) (path : String) :
    Except RustGPTError Conversation :=
  match parsed with
  | .error e => .error e
  | .ok c => .ok { c with path := path }

/-- One step pool of `ConversationIter::next`: pop the front of the stack,
push its children (ascending sibling index) back on the front.  `none` is an
iteration that never drains the stack. -/
def Conversation.dfsAux (c : Conversation) (fuel : Nat) (stack : List Message) :
    Option (List Message) :=
  match stack with
  | [] => some []
  | m :: rest =>
    match fuel with
    | 0 => none
    | fuel' + 1 => (c.dfsAux fuel' (c.get_children m.id ++ rest)).map (fun l => m :: l)

/-- `Conversation::iter` run to completion: seed the stack with the root
message (a missing root is the `expect` panic) and drain it. -/
def Conversation.iterList (c : Conversation) : Option (List Message) :=
  match c.get_root_message? with
  | none => none
  | some r => c.dfsAux c.interactions.length [r]

/-- Structural pre-order traversal: a node, then the full traversals of its
children in ascending sibling-index order.  This is the specification that
the stack-based iterator is proved against. -/
def Conversation.preorderFrom (c : Conversation) (fuel : Nat) (m : Message) : List Message :=
  match fuel with
  | 0 => [m]
  | fuel' + 1 => m :: (c.get_children m.id).flatMap (c.preorderFrom fuel')

/-! ### Specification-side predicates -/

/-- A list of messages forms a root-to-leaf tree path: every element after
the first is a child of its predecessor. -/
def chainLinked : List Message → Prop
  | [] => True
  | [_] => True
  | a :: b :: rest => b.parent_id = some a.id ∧ chainLinked (b :: rest)

/-- A downward list of messages linked starting from a given parent id. -/
def linkedFrom : Nat → List Message → Prop
  | _, [] => True
  | id, m :: rest => m.parent_id = some id ∧ linkedFrom m.id rest

/-- The continuation of a conversation view below a message: at each step,
a stored child of the current message carrying the lowest sibling index
among all its stored siblings, until a childless message is reached. -/
inductive LowestPath (c : Conversation) : Nat → List Message → Prop
  | nil (id : Nat) :
      (∀ m ∈ c.interactions, m.parent_id ≠ some id) → LowestPath c id []
  | cons (id : Nat) (m : Message) (rest : List Message) :
      m ∈ c.interactions → m.parent_id = some id →
      (∀ x ∈ c.interactions, x.parent_id = some id → m.index ≤ x.index) →
      LowestPath c m.id rest → LowestPath c id (m :: rest)

/-- Well-formedness of a conversation tree: distinct ids, exactly one
parentless message, parentless implies role System, and from every message
the parent walk reaches the root within `interactions.length` steps (which
rules out dangling parents and parent cycles). -/
def Conversation.validTree (c : Conversation) : Prop :=
  (c.interactions.map (fun m => m.id)).Nodup ∧
  c.interactions.countP (fun m => m.parent_id.isNone) = 1 ∧
  (∀ m ∈ c.interactions, m.parent_id = none → m.role = Role.System) ∧
  (∀ m ∈ c.interactions, (c.chainToRoot c.interactions.length m).isSome = true)

instance (c : Conversation) : Decidable c.validTree := by
  unfold Conversation.validTree
  exact inferInstance

/-- The root/parent invariant stated by the spec: exactly one parentless
message, it has role System, and every parent reference resolves. -/
def Conversation.rootInvariant (c : Conversation) : Prop :=
  c.interactions.countP (fun m => m.parent_id.isNone) = 1 ∧
  (∀ m ∈ c.interactions, m.parent_id = none → m.role = Role.System) ∧
  (∀ m ∈ c.interactions, ∀ pid, m.parent_id = some pid →
    ∃ p, p ∈ c.interactions ∧ p.id = pid)

/-- Conversations reachable from `Conversation::build` by any sequence of
`add_queries` and `do_completion` calls (successful or failed; a failed call
leaves the tree as it was). -/
inductive Conversation.Reachable : Conversation → Prop
  | build (parameters : CompletionParameters) (path system_message : String) (c : Conversation) :
      Conversation.build parameters path system_message = .ok c → Conversation.Reachable c
  | add_queries (c : Conversation) (parent_id : Nat) (queries : List String) :
      Conversation.Reachable c → Conversation.Reachable (c.add_queries parent_id queries).2
  | completion (c : Conversation) (message_id : Nat)
      (provider : List Message → CompletionParameters → Except Unit (List (Option String)))
      (n_completions : Option Nat) (res : Except RustGPTError (List Message)) (c2 : Conversation) :
      Conversation.Reachable c →
      c.do_completion message_id provider n_completions = some (res, c2) →
      Conversation.Reachable c2

/-! ### Concrete fixtures used by witnesses and counterexamples -/

/-- Default completion parameters (`CompletionParametersBuilder::default()`). -/
def defaultParams : CompletionParameters :=
  { temperature := 1, n := 1, model := CompletionModel.GPT35, max_tokens := 512 }

/-- The system root of the fixture conversation. -/
def rootMsg : Message :=
  { id := 1, parent_id := none, index := 1, role := Role.System, content := "sys" }

/-- A freshly built conversation with system message `"sys"`. -/
def conv0 : Conversation :=
  { default_parameters := defaultParams, interactions := [rootMsg], name := "", path := "" }

theorem conv0_built : Conversation.build defaultParams "" "sys" = .ok conv0 := rfl

/-- The fixture after adding one user query under the root. -/
def convQ : Conversation := (conv0.add_queries 1 ["Q"]).2

theorem convQ_interactions :
    convQ.interactions =
      [rootMsg, { id := 2, parent_id := some 1, index := 1, role := Role.User, content := "Q" }] :=
  rfl

/-- A schema-well-formed but corrupt aggregate: its only message has a
dangling parent reference and the table has no root at all. -/
def corruptConv : Conversation :=
  { default_parameters := defaultParams
    interactions := [{ id := 2, parent_id := some 99, index := 1, role := Role.User, content := "hi" }]
    name := "broken", path := "old" }

/-- Scenario E of the spec, built through the public operations:
root with children Q1, Q2; Q1 completed with A1, A2; Q2 completed with A3;
Q3 and Q4 added under A3. -/
def scenarioE : Option Conversation :=
  match Conversation.build defaultParams "" "root" with
  | .error _ => none
  | .ok c0 =>
    match c0.add_queries 1 ["Q1", "Q2"] with
    | (.error _, _) => none
    | (.ok _, c1) =>
      match c1.do_completion 2 (fun _ _ => Except.ok [some "A1", some "A2"]) none with
      | some (.ok _, c2) =>
        match c2.do_completion 3 (fun _ _ => Except.ok [some "A3"]) none with
        | some (.ok _, c3) =>
          match c3.add_queries 6 ["Q3", "Q4"] with
          | (.ok _, c4) => some c4
          | _ => none
        | _ => none
      | _ => none

theorem scenarioE_contents :
    (scenarioE.map (fun c => c.interactions.map (fun m => m.content))) =
      some ["root", "Q1", "Q2", "A1", "A2", "A3", "Q3", "Q4"] := by decide



/-! ### Lemmas about the sibling-index sort -/

theorem orderedInsertIdx_perm (a : Message) (l : List Message) :
    (orderedInsertIdx a l).Perm (a :: l) := by
  induction l with
  | nil => simp [orderedInsertIdx]
  | cons b t ih =>
    by_cases h : a.index ≤ b.index
    · simp [orderedInsertIdx, h]
    · simp only [orderedInsertIdx, if_neg h]
      exact (List.Perm.cons b ih).trans (List.Perm.swap a b t)

theorem sortByIndex_perm (l : List Message) : (sortByIndex l).Perm l := by
  induction l with
  | nil => simp [sortByIndex]
  | cons a t ih =>
    exact (orderedInsertIdx_perm a (sortByIndex t)).trans (List.Perm.cons a ih)

theorem mem_sortByIndex {m : Message} {l : List Message} : m ∈ sortByIndex l ↔ m ∈ l :=
  (sortByIndex_perm l).mem_iff

theorem orderedInsertIdx_pairwise (a : Message) (l : List Message)
    (h : l.Pairwise (fun x y => x.index ≤ y.index)) :
    (orderedInsertIdx a l).Pairwise (fun x y => x.index ≤ y.index) := by
  induction l with
  | nil => simp [orderedInsertIdx]
  | cons b t ih =>
    rcases List.pairwise_cons.mp h with ⟨hb, ht⟩
    by_cases hab : a.index ≤ b.index
    · simp only [orderedInsertIdx, if_pos hab]
      refine List.pairwise_cons.mpr ⟨?_, h⟩
      intro x hx
      rcases List.mem_cons.mp hx with rfl | hx
      · exact hab
      · exact le_trans hab (hb x hx)
    · simp only [orderedInsertIdx, if_neg hab]
      refine List.pairwise_cons.mpr ⟨?_, ih ht⟩
      intro x hx
      rcases List.mem_cons.mp ((orderedInsertIdx_perm a t).mem_iff.mp hx) with rfl | h1
      · exact le_of_not_le hab
      · exact hb x h1

theorem sortByIndex_pairwise (l : List Message) :
    (sortByIndex l).Pairwise (fun x y => x.index ≤ y.index) := by
  induction l with
  | nil => simp [sortByIndex]
  | cons a t ih => exact orderedInsertIdx_pairwise a (sortByIndex t) ih

theorem sortByIndex_head_min {l : List Message} {m : Message} {rest : List Message}
    (h : sortByIndex l = m :: rest) : m ∈ l ∧ ∀ x ∈ l, m.index ≤ x.index := by
  have hmem : m ∈ l := mem_sortByIndex.mp (h ▸ List.mem_cons_self m rest)
  refine ⟨hmem, ?_⟩
  intro x hx
  have hx2 : x ∈ sortByIndex l := mem_sortByIndex.mpr hx
  rw [h] at hx2
  rcases List.mem_cons.mp hx2 with rfl | hx2
  · exact le_refl _
  · have := sortByIndex_pairwise l
    rw [h] at this
    exact (List.pairwise_cons.mp this).1 x hx2

/-! ### Lemmas about message lookup -/

theorem findMsg_eq_some {c : Conversation} {id : Nat} {p : Message}
    (h : c.findMsg id = some p) : p ∈ c.interactions ∧ p.id = id := by
  unfold Conversation.findMsg at h
  refine ⟨List.mem_of_find?_eq_some h, ?_⟩
  have h2 := List.find?_some h
  simp only [beq_iff_eq] at h2
  exact h2

theorem findMsg_self {c : Conversation} {m : Message}
    (hn : (c.interactions.map (fun m => m.id)).Nodup)
    (hm : m ∈ c.interactions) : c.findMsg m.id = some m := by
  unfold Conversation.findMsg
  rcases h : c.interactions.find? (fun x => x.id == m.id) with _ | p
  · exfalso
    rw [List.find?_eq_none] at h
    exact h m hm (by simp)
  · have h2 : c.findMsg m.id = some p := h
    rcases findMsg_eq_some h2 with ⟨hpmem, hpid⟩
    have hpm : p = m := List.inj_on_of_nodup_map hn hpmem hm hpid
    rw [h, hpm]

/-! ### Lemmas about batch message building -/

theorem buildMany_parent {role : Role} {parent_id : Nat} {contents : List String}
    {sibling : Option Message} {nextId : Nat} {msgs : List Message}
    (h : Message.buildMany role parent_id contents sibling nextId = .ok msgs) :
    ∀ m ∈ msgs, m.parent_id = some parent_id ∧ m.role = role := by
  induction contents generalizing sibling nextId msgs with
  | nil =>
    unfold Message.buildMany at h
    cases h
    simp
  | cons q rest ih =>
    unfold Message.buildMany at h
    split at h
    · cases h
    · rename_i m0 hb
      split at h
      · cases h
      · rename_i ms hr
        cases h
        intro m hm
        rcases List.mem_cons.mp hm with rfl | hm
        · unfold Message.build at hb
          split at hb
          · cases hb
          · split at hb
            · cases hb
            · cases hb
              exact ⟨rfl, rfl⟩
        · exact ih hr m hm

theorem buildMany_ok {role : Role} {parent_id : Nat} {contents : List String}
    {sibling : Option Message} {nextId : Nat}
    (h : ∀ q ∈ contents, q ≠ "") :
    ∃ msgs, Message.buildMany role parent_id contents sibling nextId = .ok msgs ∧
      msgs.length = contents.length ∧
      msgs.map (fun m => m.index) =
        (List.range contents.length).map
          (fun i => (((sibling.map (fun s => s.index)).getD 0) + 1 + i) % 256) := by
  induction contents generalizing sibling nextId with
  | nil => exact ⟨[], rfl, rfl, rfl⟩
  | cons q rest ih =>
    have hq : q ≠ "" := h q (List.mem_cons_self q rest)
    have hbuild : Message.build role q (some parent_id) sibling nextId =
        .ok (Message.mk nextId (some parent_id)
          ((((sibling.map (fun s => s.index)).getD 0) + 1) % 256) role q) := by
      unfold Message.build
      rw [if_neg hq, if_neg (by simp)]
      cases sibling with
      | none => simp
      | some s => simp
    rcases @ih (some (Message.mk nextId (some parent_id)
        ((((sibling.map (fun s => s.index)).getD 0) + 1) % 256) role q)) (nextId + 1)
        (fun x hx => h x (List.mem_cons_of_mem q hx)) with ⟨ms, hms, hlen, hidx⟩
    refine ⟨Message.mk nextId (some parent_id)
        ((((sibling.map (fun s => s.index)).getD 0) + 1) % 256) role q :: ms,
        ?_, by simpa using hlen, ?_⟩
    · unfold Message.buildMany
      simp only [hbuild, hms]
    · simp only [List.map_cons, hidx, List.length_cons, List.range_succ_eq_map,
        List.map_map]
      refine List.cons_eq_cons.mpr ⟨by simp, ?_⟩
      · apply List.map_congr_left
        intro i _
        simp only [Function.comp, Option.map_some, Option.getD_some]
        show (((sibling.map (fun s => s.index)).getD 0 + 1) % 256 + 1 + i) % 256 =
          ((sibling.map (fun s => s.index)).getD 0 + 1 + (i + 1)) % 256
        conv_rhs => rw [show (sibling.map (fun s => s.index)).getD 0 + 1 + (i + 1) =
          ((sibling.map (fun s => s.index)).getD 0 + 1) + (1 + i) by omega]
        rw [Nat.add_assoc ((((sibling.map (fun s => s.index)).getD 0) + 1) % 256) 1 i,
          Nat.mod_add_mod]

theorem buildMany_err_of_mem_empty {role : Role} {parent_id : Nat} {contents : List String}
    {sibling : Option Message} {nextId : Nat} (h : "" ∈ contents) :
    ∃ e, Message.buildMany role parent_id contents sibling nextId = .error e := by
  induction contents generalizing sibling nextId with
  | nil => cases h
  | cons q rest ih =>
    rcases hb : Message.build role q (some parent_id) sibling nextId with e | m
    · exact ⟨e, by unfold Message.buildMany; simp only [hb]⟩
    · rcases List.mem_cons.mp h with hq | hmem
      · exfalso
        unfold Message.build at hb
        rw [if_pos hq.symm] at hb
        cases hb
      · rcases @ih (some m) (nextId + 1) hmem with ⟨e, he⟩
        exact ⟨e, by unfold Message.buildMany; simp only [hb, he]⟩

theorem add_children_err {c : Conversation} {parent_id : Nat} {messages : List String}
    {role : Role} {e : RustGPTError}
    (h : Message.buildMany role parent_id messages ((c.get_children parent_id).getLast?)
      c.freshId = .error e) :
    c.add_children_to_message parent_id messages role = (.error e, c) := by
  unfold Conversation.add_children_to_message
  simp only [h]

theorem add_children_ok {c : Conversation} {parent_id : Nat} {messages : List String}
    {role : Role} {msgs : List Message}
    (h : Message.buildMany role parent_id messages ((c.get_children parent_id).getLast?)
      c.freshId = .ok msgs) :
    c.add_children_to_message parent_id messages role =
      (.ok msgs, { c with interactions := c.interactions ++ msgs }) := by
  unfold Conversation.add_children_to_message
  simp only [h]

theorem add_children_snd (c : Conversation) (parent_id : Nat) (messages : List String)
    (role : Role) :
    (∃ e, c.add_children_to_message parent_id messages role = (.error e, c)) ∨
    (∃ msgs, c.add_children_to_message parent_id messages role =
      (.ok msgs, { c with interactions := c.interactions ++ msgs })) := by
  rcases h : Message.buildMany role parent_id messages
      ((c.get_children parent_id).getLast?) c.freshId with e | msgs
  · exact Or.inl ⟨e, add_children_err h⟩
  · exact Or.inr ⟨msgs, add_children_ok h⟩

theorem walkUp_ok_of_valid {c : Conversation} {m : Message}
    (hv : c.validTree) (hm : m ∈ c.interactions) :
    ∃ l, c.walkUp c.interactions.length m = some (.ok l) := by
  have h4 := hv.2.2.2 m hm
  unfold Conversation.chainToRoot at h4
  rcases hw : c.walkUp c.interactions.length m with _ | e
  · rw [hw] at h4; cases h4
  · rcases e with e | l
    · rw [hw] at h4; cases h4
    · exact ⟨l, rfl⟩

/-! ### Claim C10: 8-bit sibling index wrap-around -/

/-- C10: the sibling index is 8-bit; a new child's index is the last
sibling's index plus one in arithmetic modulo 256, so after a sibling of
index 255 the next message gets index 0 (not 256), and the index is no
longer positive. -/
theorem sibling_index_8bit_wrap (role : Role) (content : String) (pid id : Nat) (s : Message)
    (h : content ≠ "") :
    ∃ m, Message.build role content (some pid) (some s) id = .ok m ∧
      m.index = (s.index + 1) % 256 ∧ m.index < 256 ∧ m.index ≠ 256 ∧
      (s.index = 255 → m.index = 0 ∧ ¬ 0 < m.index) := by
  refine ⟨Message.mk id (some pid) ((s.index + 1) % 256) role content, ?_, rfl, ?_, ?_, ?_⟩
  · unfold Message.build
    rw [if_neg h, if_neg (by simp)]
  · exact Nat.mod_lt _ (by omega)
  · exact Nat.ne_of_lt (Nat.mod_lt _ (by omega))
  · intro h255
    rw [h255]
    refine ⟨rfl, ?_⟩
    show ¬ 0 < (255 + 1) % 256
    decide

/-- Witness for C10 at a concrete sibling of index 255. -/
theorem sibling_index_8bit_wrap_witness :
    ∃ m, Message.build Role.User "x" (some 1) (some (Message.mk 5 (some 1) 255 Role.User "w")) 9 =
      .ok m ∧ m.index = (255 + 1) % 256 ∧ m.index < 256 ∧ m.index ≠ 256 ∧
      (255 = 255 → m.index = 0 ∧ ¬ 0 < m.index) :=
  sibling_index_8bit_wrap Role.User "x" 1 9 (Message.mk 5 (some 1) 255 Role.User "w")
    (by decide)

/-! ### Claim C9: role check of add_queries -/

/-- C9: with the parent present in the tree, `add_queries` fails with
`InvalidMessageRole` when the parent has role User, and can only succeed
when the parent has role Assistant or System. -/
theorem add_queries_role_check (c : Conversation) (pid : Nat) (queries : List String)
    (p : Message) (hp : c.findMsg pid = some p) :
    (p.role = Role.User →
      c.add_queries pid queries = (.error RustGPTError.InvalidMessageRole, c)) ∧
    (∀ msgs c2, c.add_queries pid queries = (.ok msgs, c2) →
      p.role = Role.Assistant ∨ p.role = Role.System) := by
  unfold Conversation.add_queries
  simp only [hp]
  constructor
  · intro hrole
    rw [hrole]
    simp
  · intro msgs c2 h
    by_cases hcond : p.role = Role.Assistant ∨ p.role = Role.System
    · exact hcond
    · rw [if_neg hcond] at h
      simp [Prod.ext_iff] at h

/-- Witness for C9: adding queries under the User message of `convQ`. -/
theorem add_queries_role_check_witness :
    ((Message.mk 2 (some 1) 1 Role.User "Q").role = Role.User →
      convQ.add_queries 2 ["Q2"] = (.error RustGPTError.InvalidMessageRole, convQ)) ∧
    (∀ msgs c2, convQ.add_queries 2 ["Q2"] = (.ok msgs, c2) →
      (Message.mk 2 (some 1) 1 Role.User "Q").role = Role.Assistant ∨
      (Message.mk 2 (some 1) 1 Role.User "Q").role = Role.System) :=
  add_queries_role_check convQ 2 ["Q2"] (Message.mk 2 (some 1) 1 Role.User "Q") (by decide)

/-! ### Claim C5: add_queries failures are atomic -/

/-- C5: `add_queries` fails with `MessageNotPartOfConversation` when the
parent id is absent, fails whenever some query is the empty string, and on
every failure returns the conversation unchanged (no partial insertion). -/
theorem add_queries_failure_atomic (c : Conversation) (pid : Nat) (queries : List String) :
    (c.findMsg pid = none →
      c.add_queries pid queries = (.error RustGPTError.MessageNotPartOfConversation, c)) ∧
    ("" ∈ queries → ∃ e, (c.add_queries pid queries).1 = .error e) ∧
    (∀ e, (c.add_queries pid queries).1 = .error e → (c.add_queries pid queries).2 = c) := by
  refine ⟨?_, ?_, ?_⟩
  · intro h
    unfold Conversation.add_queries
    simp only [h]
  · intro hmem
    unfold Conversation.add_queries
    rcases hp : c.findMsg pid with _ | p
    · exact ⟨RustGPTError.MessageNotPartOfConversation, rfl⟩
    · simp only
      by_cases hcond : p.role = Role.Assistant ∨ p.role = Role.System
      · rw [if_pos hcond]
        rcases @buildMany_err_of_mem_empty Role.User pid queries
          ((c.get_children pid).getLast?) c.freshId hmem with ⟨e, he⟩
        exact ⟨e, by rw [add_children_err he]⟩
      · rw [if_neg hcond]
        exact ⟨RustGPTError.InvalidMessageRole, rfl⟩
  · intro e he
    unfold Conversation.add_queries at he ⊢
    rcases hp : c.findMsg pid with _ | p
    · simp only [hp]
    · simp only [hp] at he ⊢
      by_cases hcond : p.role = Role.Assistant ∨ p.role = Role.System
      · rw [if_pos hcond] at he ⊢
        rcases add_children_snd c pid queries Role.User with ⟨e2, h2⟩ | ⟨msgs, h2⟩
        · rw [h2]
        · rw [h2] at he
          cases he
      · rw [if_neg hcond]

/-- Witness for C5 at concrete inputs: absent parent id, then an empty query. -/
theorem add_queries_failure_atomic_witness :
    conv0.add_queries 99 ["Q"] = (.error RustGPTError.MessageNotPartOfConversation, conv0) ∧
    (∃ e, (conv0.add_queries 1 [""]).1 = .error e) ∧
    (conv0.add_queries 1 [""]).2 = conv0 := by
  refine ⟨(add_queries_failure_atomic conv0 99 ["Q"]).1 (by decide),
    (add_queries_failure_atomic conv0 1 [""]).2.1 (by decide), ?_⟩
  rcases (add_queries_failure_atomic conv0 1 [""]).2.1 (by decide) with ⟨e, he⟩
  exact (add_queries_failure_atomic conv0 1 [""]).2.2 e he

/-! ### Claim C4: sibling indices of inserted children -/

/-- C4 (amended): the indices of a batch of inserted children continue from
the last existing child's index (not from the child count), each step being
an 8-bit increment: the i-th inserted message (0-based) has index
`(last + 1 + i) % 256`, where `last` is the index of the last existing child
of the parent (0 when the parent has no children).  When the existing
children have indices exactly 1..k and k + m ≤ 255 this agrees with the
claimed k+1, …, k+m; the scenario-B instance yields [1,2,3] and then 4. -/
theorem add_queries_indices (c : Conversation) (pid : Nat) (p : Message)
    (queries : List String) (hp : c.findMsg pid = some p)
    (hrole : p.role = Role.Assistant ∨ p.role = Role.System)
    (hne : ∀ q ∈ queries, q ≠ "") :
    ∃ msgs, c.add_queries pid queries =
        (.ok msgs, { c with interactions := c.interactions ++ msgs }) ∧
      msgs.length = queries.length ∧
      msgs.map (fun m => m.index) =
        (List.range queries.length).map
          (fun i =>
            ((((c.get_children pid).getLast?.map (fun m => m.index)).getD 0) + 1 + i) % 256) ∧
      (∀ m ∈ msgs, m.parent_id = some pid ∧ m.role = Role.User) := by
  obtain ⟨msgs, hbm, hlen, hidx⟩ :=
    @buildMany_ok Role.User pid queries ((c.get_children pid).getLast?) c.freshId hne
  refine ⟨msgs, ?_, hlen, hidx, fun m hm => buildMany_parent hbm m hm⟩
  unfold Conversation.add_queries
  simp only [hp]
  rw [if_pos hrole]
  exact add_children_ok hbm

/-- Witness for C4: scenario B, first call on a fresh tree. -/
theorem add_queries_indices_witness :
    ∃ msgs, conv0.add_queries 1 ["Q1", "Q2", "Q3"] =
        (.ok msgs, { conv0 with interactions := conv0.interactions ++ msgs }) ∧
      msgs.map (fun m => m.index) = [1, 2, 3] := by
  obtain ⟨msgs, h1, _, hidx, _⟩ :=
    add_queries_indices conv0 1 rootMsg ["Q1", "Q2", "Q3"] (by decide) (Or.inr rfl) (by decide)
  refine ⟨msgs, h1, ?_⟩
  rw [hidx]
  decide

/-- The 256-children run used to refute C4 as stated. -/
def overflowRun : Except RustGPTError (List Message) × Conversation :=
  conv0.add_queries 1 (List.replicate 256 "Q")

set_option maxRecDepth 8000 in
/-- Counterexample to C4 as stated: inserting 256 children under the fresh
root produces sibling indices 1, …, 255, 0 — not the claimed consecutive
integers k+1, …, k+m = 1, …, 256 (the 256th index wraps to 0). -/
theorem add_queries_indices_counterexample :
    (overflowRun.1.map (fun l => l.map (fun m => m.index))) =
      .ok (((List.range 255).map (fun i => i + 1)) ++ [0]) ∧
    ¬ (overflowRun.1.map (fun l => l.map (fun m => m.index))) =
      .ok ((List.range 256).map (fun i => i + 1)) := by
  constructor
  · decide
  · decide

/-! ### Claim C2: load performs no tree validation -/

/-- C2 (amended): after a schema-successful parse, `load` returns the decoded
aggregate unchanged apart from rebinding the storage path; it neither rejects
an invariant-violating message table nor repairs it (there is no
`CorruptAggregate` check anywhere on the load path). -/
theorem load_no_validation (parsed : Except RustGPTError Conversation) (path : String)
    (c : Conversation) (h : parsed = .ok c) :
    Conversation.loadDecoded parsed path = .ok { c with path := path } ∧
    ({ c with path := path } : Conversation).interactions = c.interactions := by
  subst h
  exact ⟨rfl, rfl⟩

/-- Witness for C2 (amended) at the concrete corrupt aggregate. -/
theorem load_no_validation_witness :
    Conversation.loadDecoded (.ok corruptConv) "p.yaml" =
      .ok { corruptConv with path := "p.yaml" } ∧
    ({ corruptConv with path := "p.yaml" } : Conversation).interactions =
      corruptConv.interactions :=
  load_no_validation (.ok corruptConv) "p.yaml" corruptConv rfl

/-- Counterexample to C2 as stated: `corruptConv` has no root entry and a
dangling parent reference, yet `load` returns it as `.ok` (with the path
rebound) instead of rejecting it with a `CorruptAggregate` condition. -/
theorem load_accepts_corrupt_counterexample :
    corruptConv.interactions.countP (fun m => m.parent_id.isNone) = 0 ∧
    (∃ m ∈ corruptConv.interactions, m.parent_id = some 99 ∧
      ∀ p ∈ corruptConv.interactions, p.id ≠ 99) ∧
    Conversation.loadDecoded (.ok corruptConv) "moved.yaml" =
      .ok { corruptConv with path := "moved.yaml" } := by
  refine ⟨rfl, by decide, rfl⟩

/-! ### Claim C1: completion with an empty choice list -/

/-- C1 (amended): on a valid tree, completing a User message with a provider
that returns no transport error and an empty list of choices does not fail:
it returns success with an empty list of inserted messages, and the tree is
unchanged (in particular the frontier is the same before and after). -/
theorem do_completion_empty_choices (c : Conversation) (mid : Nat) (m : Message)
    (n_completions : Option Nat) (hv : c.validTree) (hm : c.findMsg mid = some m)
    (hrole : m.role = Role.User) :
    c.do_completion mid (fun _ _ => Except.ok []) n_completions = some (.ok [], c) ∧
    (c.do_completion mid (fun _ _ => Except.ok []) n_completions).map
      (fun r => r.2.get_latest_messages) = some c.get_latest_messages := by
  obtain ⟨l, hw⟩ := walkUp_ok_of_valid hv (findMsg_eq_some hm).1
  have hbm : Message.buildMany Role.Assistant mid ([] : List String)
      ((c.get_children mid).getLast?) c.freshId = .ok [] := rfl
  have hmain : c.do_completion mid (fun _ _ => Except.ok []) n_completions =
      some (.ok [], c) := by
    unfold Conversation.do_completion
    simp only [hm]
    rw [if_pos hrole]
    simp only [hw, List.filterMap_nil]
    rw [add_children_ok hbm]
    simp
  exact ⟨hmain, by rw [hmain]; rfl⟩

/-- Witness for C1 (amended) on the concrete two-message tree `convQ`. -/
theorem do_completion_empty_choices_witness :
    convQ.do_completion 2 (fun _ _ => Except.ok []) none = some (.ok [], convQ) ∧
    (convQ.do_completion 2 (fun _ _ => Except.ok []) none).map
      (fun r => r.2.get_latest_messages) = some convQ.get_latest_messages :=
  do_completion_empty_choices convQ 2 (Message.mk 2 (some 1) 1 Role.User "Q") none
    (by decide) (by decide) rfl

/-- Counterexample to C1 as stated: on the concrete tree `convQ` with User
message 2, a provider returning `.ok []` makes `do_completion` return
success (an `Ok` with no messages) with the tree unchanged, not the claimed
`CompletionFailed` error condition. -/
theorem do_completion_empty_choices_counterexample :
    convQ.do_completion 2 (fun _ _ => Except.ok []) none = some (.ok [], convQ) ∧
    ∀ e, convQ.do_completion 2 (fun _ _ => Except.ok []) none ≠
      some (.error e, convQ) := by
  constructor
  · decide
  · intro e h
    rw [(by decide : convQ.do_completion 2 (fun _ _ => Except.ok []) none =
      some (.ok [], convQ))] at h
    cases h

/-! ### Claim C8: the frontier -/

theorem parents_contains_iff (c : Conversation) (i : Nat) :
    ((c.interactions.filterMap (fun m => m.parent_id)).contains i) = true ↔
    ∃ x ∈ c.interactions, x.parent_id = some i := by
  constructor
  · intro h
    have h2 : i ∈ c.interactions.filterMap (fun m => m.parent_id) := by
      simpa [List.contains, List.elem_eq_mem] using h
    exact List.mem_filterMap.mp h2
  · rintro ⟨x, hx, hpx⟩
    have h2 : i ∈ c.interactions.filterMap (fun m => m.parent_id) :=
      List.mem_filterMap.mpr ⟨x, hx, hpx⟩
    simpa [List.contains, List.elem_eq_mem] using h2

/-- C8: a message is returned by `get_latest_messages` exactly when it is
stored and no stored message has it as parent; and on a freshly built tree
the frontier is exactly the System root. -/
theorem frontier_characterization :
    (∀ (c : Conversation) (m : Message),
      m ∈ c.get_latest_messages ↔
        m ∈ c.interactions ∧ ∀ x ∈ c.interactions, x.parent_id ≠ some m.id) ∧
    (∀ (p : CompletionParameters) (path s : String) (c : Conversation),
      Conversation.build p path s = .ok c →
        ∃ r, c.interactions = [r] ∧ c.get_latest_messages = [r] ∧
          r.parent_id = none ∧ r.role = Role.System ∧ r.content = s) := by
  constructor
  · intro c m
    unfold Conversation.get_latest_messages
    rw [List.mem_filter]
    simp only [Bool.not_eq_true']
    constructor
    · rintro ⟨h1, h2⟩
      refine ⟨h1, fun x hx hpx => ?_⟩
      have hc := (parents_contains_iff c m.id).mpr ⟨x, hx, hpx⟩
      rw [h2] at hc
      cases hc
    · rintro ⟨h1, h2⟩
      refine ⟨h1, ?_⟩
      rcases Bool.eq_false_or_eq_true
          ((c.interactions.filterMap (fun m => m.parent_id)).contains m.id) with hT | hF
      · rcases (parents_contains_iff c m.id).mp hT with ⟨x, hx, hpx⟩
        exact absurd hpx (h2 x hx)
      · exact hF
  · intro p path s c h
    unfold Conversation.build at h
    split at h
    · cases h
    · rename_i msg hmsg
      cases h
      unfold Message.build at hmsg
      split at hmsg
      · cases hmsg
      · split at hmsg
        · cases hmsg
        · cases hmsg
          exact ⟨_, rfl, rfl, rfl, rfl, rfl⟩

/-- Witness for C8 on the fresh conversation `conv0`. -/
theorem frontier_characterization_witness :
    (rootMsg ∈ conv0.get_latest_messages ↔
      rootMsg ∈ conv0.interactions ∧
        ∀ x ∈ conv0.interactions, x.parent_id ≠ some rootMsg.id) ∧
    (∃ r, conv0.interactions = [r] ∧ conv0.get_latest_messages = [r] ∧
      r.parent_id = none ∧ r.role = Role.System ∧ r.content = "sys") :=
  ⟨frontier_characterization.1 conv0 rootMsg,
   frontier_characterization.2 defaultParams "" "sys" conv0 rfl⟩

/-! ### Claim C3: the root/parent invariant under the mutating operations -/

theorem rootInvariant_append {c : Conversation} {pid : Nat} {msgs : List Message}
    (ih : c.rootInvariant) (hex : ∃ p, p ∈ c.interactions ∧ p.id = pid)
    (hpar : ∀ m ∈ msgs, m.parent_id = some pid) :
    Conversation.rootInvariant { c with interactions := c.interactions ++ msgs } := by
  obtain ⟨c1, c2, c3⟩ := ih
  refine ⟨?_, ?_, ?_⟩
  · show (c.interactions ++ msgs).countP (fun m => m.parent_id.isNone) = 1
    rw [List.countP_append]
    have hz : msgs.countP (fun m => m.parent_id.isNone) = 0 := by
      rw [List.countP_eq_zero]
      intro m hm
      rw [hpar m hm]
      simp
    rw [hz, c1]
  · intro m hm hnone
    rcases List.mem_append.mp hm with h1 | h1
    · exact c2 m h1 hnone
    · rw [hpar m h1] at hnone
      cases hnone
  · intro m hm pid2 hpid2
    rcases List.mem_append.mp hm with h1 | h1
    · rcases c3 m h1 pid2 hpid2 with ⟨q, hq1, hq2⟩
      exact ⟨q, List.mem_append_left _ hq1, hq2⟩
    · rw [hpar m h1] at hpid2
      cases hpid2
      rcases hex with ⟨q, hq1, hq2⟩
      exact ⟨q, List.mem_append_left _ hq1, hq2⟩

/-- C3: every tree reachable from `build` through `add_queries` and
`do_completion` has exactly one parentless message, that message has role
System, and every other message's parent reference resolves inside the
tree. -/
theorem reachable_rootInvariant (c : Conversation) (h : c.Reachable) : c.rootInvariant := by
  induction h with
  | build p path s c hb =>
    unfold Conversation.build at hb
    split at hb
    · cases hb
    · rename_i msg hmsg
      cases hb
      unfold Message.build at hmsg
      split at hmsg
      · cases hmsg
      · split at hmsg
        · cases hmsg
        · cases hmsg
          refine ⟨rfl, ?_, ?_⟩
          · intro m hm hpar
            rcases List.mem_singleton.mp hm with rfl
            rfl
          · intro m hm pid hpid
            rcases List.mem_singleton.mp hm with rfl
            cases hpid
  | add_queries c pid queries hr ih =>
    rcases hp : c.findMsg pid with _ | p
    · unfold Conversation.add_queries
      simp only [hp]
      exact ih
    · unfold Conversation.add_queries
      simp only [hp]
      by_cases hcond : p.role = Role.Assistant ∨ p.role = Role.System
      · rw [if_pos hcond]
        rcases hbm : Message.buildMany Role.User pid queries
            ((c.get_children pid).getLast?) c.freshId with e | msgs
        · rw [add_children_err hbm]
          exact ih
        · rw [add_children_ok hbm]
          rcases findMsg_eq_some hp with ⟨hpm, hpid⟩
          exact rootInvariant_append ih ⟨p, hpm, hpid⟩
            (fun m hm => (buildMany_parent hbm m hm).1)
      · rw [if_neg hcond]
        exact ih
  | completion c mid provider nc res c2 hr hc ih =>
    unfold Conversation.do_completion at hc
    rcases hp : c.findMsg mid with _ | msg
    · rw [hp] at hc
      cases hc
      exact ih
    · rw [hp] at hc
      simp only at hc
      by_cases hrole : msg.role = Role.User
      · rw [if_pos hrole] at hc
        rcases hwu : c.walkUp c.interactions.length msg with _ | er
        · rw [hwu] at hc
          cases hc
        · rcases er with e | chain
          · rw [hwu] at hc
            simp only at hc
            cases hc
            exact ih
          · rw [hwu] at hc
            simp only at hc
            generalize (match nc with
              | some n => c.default_parameters.with_n n
              | none => c.default_parameters) = pa at hc
            rcases hpr : provider chain.reverse pa with u | choices
            · rw [hpr] at hc
              simp only at hc
              cases hc
              exact ih
            · rw [hpr] at hc
              simp only at hc
              rcases hbm : Message.buildMany Role.Assistant mid (choices.filterMap id)
                  ((c.get_children mid).getLast?) c.freshId with e | msgs
              · rw [add_children_err hbm] at hc
                simp only at hc
                cases hc
                exact ih
              · rw [add_children_ok hbm] at hc
                simp only at hc
                cases hc
                rcases findMsg_eq_some hp with ⟨hmm, hmid⟩
                exact rootInvariant_append ih ⟨msg, hmm, hmid⟩
                  (fun m hm => (buildMany_parent hbm m hm).1)
      · rw [if_neg hrole] at hc
        cases hc
        exact ih

/-- Witness for C3: the invariant on the concrete freshly built tree. -/
theorem reachable_rootInvariant_witness : conv0.rootInvariant :=
  reachable_rootInvariant conv0 (Conversation.Reachable.build defaultParams "" "sys" conv0 rfl)

/-! ### The ancestor chain: structural lemmas -/

/-- Length of the parent chain of a message (0 on a corrupt walk). -/
def Conversation.chainDepth (c : Conversation) (m : Message) : Nat :=
  ((c.chainToRoot c.interactions.length m).getD []).length

theorem walkUp_none {c : Conversation} {f : Nat} {m : Message} (h : m.parent_id = none) :
    c.walkUp f m = some (.ok [m]) := by
  unfold Conversation.walkUp
  rw [h]

theorem walkUp_zero_some {c : Conversation} {m : Message} {pid : Nat}
    (h : m.parent_id = some pid) : c.walkUp 0 m = none := by
  unfold Conversation.walkUp
  rw [h]

theorem walkUp_succ_dangling {c : Conversation} {m : Message} {pid : Nat} {f : Nat}
    (h : m.parent_id = some pid) (hp : c.findMsg pid = none) :
    c.walkUp (f + 1) m = some (.error RustGPTError.MessageNotPartOfConversation) := by
  conv_lhs => rw [Conversation.walkUp]
  rw [h]
  simp only [hp]

theorem walkUp_succ_found {c : Conversation} {m p : Message} {pid : Nat} {f : Nat}
    (h : m.parent_id = some pid) (hp : c.findMsg pid = some p) :
    c.walkUp (f + 1) m = (c.walkUp f p).map (fun e => e.map (fun l => m :: l)) := by
  conv_lhs => rw [Conversation.walkUp]
  rw [h]
  simp only [hp]

theorem chain_none {c : Conversation} {f : Nat} {m : Message} (h : m.parent_id = none) :
    c.chainToRoot f m = some [m] := by
  unfold Conversation.chainToRoot; rw [walkUp_none h]

theorem chain_zero {c : Conversation} {m : Message} {pid : Nat} (h : m.parent_id = some pid) :
    c.chainToRoot 0 m = none := by
  unfold Conversation.chainToRoot; rw [walkUp_zero_some h]

theorem chain_dangling {c : Conversation} {m : Message} {pid : Nat} {f : Nat}
    (h : m.parent_id = some pid) (hp : c.findMsg pid = none) :
    c.chainToRoot (f + 1) m = none := by
  unfold Conversation.chainToRoot
  rw [walkUp_succ_dangling h hp]

theorem chain_succ {c : Conversation} {m p : Message} {pid : Nat} {f : Nat}
    (h : m.parent_id = some pid) (hp : c.findMsg pid = some p) :
    c.chainToRoot (f + 1) m = (c.chainToRoot f p).map (fun l => m :: l) := by
  unfold Conversation.chainToRoot
  rw [walkUp_succ_found h hp]
  rcases hw : c.walkUp f p with _ | e
  · rfl
  · rcases e with e | l <;> rfl

theorem chain_mono (c : Conversation) : ∀ (f : Nat) (m : Message) (l : List Message),
    c.chainToRoot f m = some l → c.chainToRoot (f + 1) m = some l := by
  intro f
  induction f with
  | zero =>
    intro m l h
    rcases hpar : m.parent_id with _ | pid
    · rw [chain_none hpar] at h ⊢; exact h
    · rw [chain_zero hpar] at h; cases h
  | succ g ih =>
    intro m l h
    rcases hpar : m.parent_id with _ | pid
    · rw [chain_none hpar] at h ⊢; exact h
    · rcases hp : c.findMsg pid with _ | p
      · rw [chain_dangling hpar hp] at h; cases h
      · rw [chain_succ hpar hp] at h ⊢
        rcases hw : c.chainToRoot g p with _ | lp
        · rw [hw] at h; cases h
        · rw [hw] at h
          rw [ih p lp hw]
          exact h

theorem chain_mono_le (c : Conversation) {f g : Nat} (hfg : f ≤ g) {m : Message}
    {l : List Message} (h : c.chainToRoot f m = some l) : c.chainToRoot g m = some l := by
  induction g with
  | zero =>
    have hf0 : f = 0 := by omega
    rw [hf0] at h; exact h
  | succ k ih =>
    rcases Nat.lt_or_ge f (k + 1) with hlt | hge
    · exact chain_mono c k m l (ih (by omega))
    · have hfk : f = k + 1 := by omega
      rw [hfk] at h; exact h

theorem chain_head {c : Conversation} {f : Nat} {m : Message} {l : List Message}
    (h : c.chainToRoot f m = some l) : ∃ t, l = m :: t := by
  rcases hpar : m.parent_id with _ | pid
  · rw [chain_none hpar] at h; cases h; exact ⟨[], rfl⟩
  · cases f with
    | zero => rw [chain_zero hpar] at h; cases h
    | succ g =>
      rcases hp : c.findMsg pid with _ | p
      · rw [chain_dangling hpar hp] at h; cases h
      · rw [chain_succ hpar hp] at h
        rcases hw : c.chainToRoot g p with _ | lp
        · rw [hw] at h; cases h
        · rw [hw] at h; cases h; exact ⟨lp, rfl⟩

theorem chain_elems {c : Conversation} : ∀ (f : Nat) (m : Message) (l : List Message),
    m ∈ c.interactions → c.chainToRoot f m = some l → ∀ y ∈ l, y ∈ c.interactions := by
  intro f
  induction f with
  | zero =>
    intro m l hm h y hy
    rcases hpar : m.parent_id with _ | pid
    · rw [chain_none hpar] at h; cases h
      rcases List.mem_singleton.mp hy with rfl
      exact hm
    · rw [chain_zero hpar] at h; cases h
  | succ g ih =>
    intro m l hm h y hy
    rcases hpar : m.parent_id with _ | pid
    · rw [chain_none hpar] at h; cases h
      rcases List.mem_singleton.mp hy with rfl
      exact hm
    · rcases hp : c.findMsg pid with _ | p
      · rw [chain_dangling hpar hp] at h; cases h
      · rw [chain_succ hpar hp] at h
        rcases hw : c.chainToRoot g p with _ | lp
        · rw [hw] at h; cases h
        · rw [hw] at h; cases h
          rcases List.mem_cons.mp hy with rfl | hy2
          · exact hm
          · exact ih p lp (findMsg_eq_some hp).1 hw y hy2

theorem chain_last {c : Conversation} : ∀ (f : Nat) (m : Message) (l : List Message),
    c.chainToRoot f m = some l → ∃ r, l.getLast? = some r ∧ r.parent_id = none := by
  intro f
  induction f with
  | zero =>
    intro m l h
    rcases hpar : m.parent_id with _ | pid
    · rw [chain_none hpar] at h; cases h
      exact ⟨m, rfl, hpar⟩
    · rw [chain_zero hpar] at h; cases h
  | succ g ih =>
    intro m l h
    rcases hpar : m.parent_id with _ | pid
    · rw [chain_none hpar] at h; cases h
      exact ⟨m, rfl, hpar⟩
    · rcases hp : c.findMsg pid with _ | p
      · rw [chain_dangling hpar hp] at h; cases h
      · rw [chain_succ hpar hp] at h
        rcases hw : c.chainToRoot g p with _ | lp
        · rw [hw] at h; cases h
        · rw [hw] at h; cases h
          obtain ⟨t, rfl⟩ := chain_head hw
          rcases ih p (p :: t) hw with ⟨r, hr1, hr2⟩
          exact ⟨r, by rw [List.getLast?_cons_cons]; exact hr1, hr2⟩

theorem chain_len {c : Conversation} : ∀ (f : Nat) (m : Message) (l : List Message),
    c.chainToRoot f m = some l → l.length ≤ f + 1 := by
  intro f
  induction f with
  | zero =>
    intro m l h
    rcases hpar : m.parent_id with _ | pid
    · rw [chain_none hpar] at h; cases h; simp
    · rw [chain_zero hpar] at h; cases h
  | succ g ih =>
    intro m l h
    rcases hpar : m.parent_id with _ | pid
    · rw [chain_none hpar] at h; cases h; simp
    · rcases hp : c.findMsg pid with _ | p
      · rw [chain_dangling hpar hp] at h; cases h
      · rw [chain_succ hpar hp] at h
        rcases hw : c.chainToRoot g p with _ | lp
        · rw [hw] at h; cases h
        · rw [hw] at h; cases h
          have := ih p lp hw
          simp only [List.length_cons]
          omega

theorem chain_suffix_head {c : Conversation} : ∀ (f : Nat) (m : Message) (l : List Message),
    c.chainToRoot f m = some l → ∀ (y : Message) (t : List Message), y :: t <:+ l →
    ∃ g, g ≤ f ∧ c.chainToRoot g y = some (y :: t) := by
  intro f
  induction f with
  | zero =>
    intro m l h y t hsf
    rcases hpar : m.parent_id with _ | pid
    · rw [chain_none hpar] at h; cases h
      rcases List.suffix_cons_iff.mp hsf with he | h2
      · rcases he with ⟨rfl, rfl⟩
        exact ⟨0, Nat.le_refl 0, chain_none hpar⟩
      · have hlen := h2.length_le
        simp at hlen
    · rw [chain_zero hpar] at h; cases h
  | succ g ih =>
    intro m l h y t hsf
    rcases hpar : m.parent_id with _ | pid
    · rw [chain_none hpar] at h; cases h
      rcases List.suffix_cons_iff.mp hsf with he | h2
      · rcases he with ⟨rfl, rfl⟩
        exact ⟨g + 1, Nat.le_refl _, chain_none hpar⟩
      · have hlen := h2.length_le
        simp at hlen
    · rcases hp : c.findMsg pid with _ | p
      · rw [chain_dangling hpar hp] at h; cases h
      · have hstep : c.chainToRoot (g + 1) m = (c.chainToRoot g p).map (fun l => m :: l) :=
          chain_succ hpar hp
        rw [hstep] at h
        rcases hw : c.chainToRoot g p with _ | lp
        · rw [hw] at h; cases h
        · rw [hw] at h; cases h
          rcases List.suffix_cons_iff.mp hsf with he | h2
          · rcases he with ⟨rfl, rfl⟩
            refine ⟨g + 1, Nat.le_refl _, ?_⟩
            rw [hstep, hw]
            rfl
          · rcases ih p lp hw y t h2 with ⟨g2, hg2, hc2⟩
            exact ⟨g2, Nat.le_succ_of_le hg2, hc2⟩

theorem chain_nodup {c : Conversation} : ∀ (f : Nat) (m : Message) (l : List Message),
    c.chainToRoot f m = some l → l.Nodup := by
  intro f
  induction f with
  | zero =>
    intro m l h
    rcases hpar : m.parent_id with _ | pid
    · rw [chain_none hpar] at h; cases h; simp
    · rw [chain_zero hpar] at h; cases h
  | succ g ih =>
    intro m l h
    rcases hpar : m.parent_id with _ | pid
    · rw [chain_none hpar] at h; cases h; simp
    · rcases hp : c.findMsg pid with _ | p
      · rw [chain_dangling hpar hp] at h; cases h
      · have hstep : c.chainToRoot (g + 1) m = (c.chainToRoot g p).map (fun l => m :: l) :=
          chain_succ hpar hp
        rw [hstep] at h
        rcases hw : c.chainToRoot g p with _ | lp
        · rw [hw] at h; cases h
        · rw [hw] at h; cases h
          refine List.nodup_cons.mpr ⟨?_, ih p lp hw⟩
          intro hmem
          rcases List.append_of_mem hmem with ⟨s, t2, rfl⟩
          rcases chain_suffix_head g p (s ++ m :: t2) hw m t2 ⟨s, rfl⟩ with ⟨g2, hg2, hc2⟩
          have h1 : c.chainToRoot (g + 1) m = some (m :: t2) :=
            chain_mono_le c (by omega) hc2
          have h2 : c.chainToRoot (g + 1) m = some (m :: (s ++ m :: t2)) := by
            rw [hstep, hw]
            rfl
          rw [h1] at h2
          have h3 : (m :: t2 : List Message) = m :: (s ++ m :: t2) := Option.some.inj h2
          have h4 := congrArg List.length h3
          simp at h4
          omega

theorem chain_len_le_card {c : Conversation} {m : Message} {l : List Message}
    (hm : m ∈ c.interactions)
    (h : c.chainToRoot c.interactions.length m = some l) :
    l.length ≤ c.interactions.length := by
  have hnd := chain_nodup _ _ _ h
  have hsub : l ⊆ c.interactions := fun y hy => chain_elems _ _ _ hm h y hy
  exact (List.Nodup.subperm hnd hsub).length_le

theorem chain_child_step {c : Conversation} {x y : Message} {f : Nat} {ly : List Message}
    (hpar : y.parent_id = some x.id) (hfx : c.findMsg x.id = some x)
    (h : c.chainToRoot (f + 1) y = some ly) :
    ∃ lx, ly = y :: lx ∧ c.chainToRoot f x = some lx := by
  rw [chain_succ hpar hfx] at h
  rcases hw : c.chainToRoot f x with _ | lx
  · rw [hw] at h; cases h
  · rw [hw] at h; cases h
    exact ⟨lx, rfl, rfl⟩

theorem chainDepth_spec {c : Conversation} (hv : c.validTree) {m : Message}
    (hm : m ∈ c.interactions) :
    ∃ l, c.chainToRoot c.interactions.length m = some l ∧ l.length = c.chainDepth m ∧
      1 ≤ l.length ∧ l.length ≤ c.interactions.length := by
  obtain ⟨l, hl⟩ := Option.isSome_iff_exists.mp (hv.2.2.2 m hm)
  refine ⟨l, hl, ?_, ?_, chain_len_le_card hm hl⟩
  · unfold Conversation.chainDepth
    rw [hl]
    rfl
  · obtain ⟨t, rfl⟩ := chain_head hl
    simp

theorem chainDepth_child {c : Conversation} (hv : c.validTree) {x y : Message}
    (hx : x ∈ c.interactions) (hy : y ∈ c.interactions) (hpar : y.parent_id = some x.id) :
    c.chainDepth y = c.chainDepth x + 1 := by
  have hfx := findMsg_self hv.1 hx
  obtain ⟨ly, hly, hlyd, hly1, hlyn⟩ := chainDepth_spec hv hy
  obtain ⟨lx, hlx, hlxd, hlx1, hlxn⟩ := chainDepth_spec hv hx
  have hn : c.interactions.length ≠ 0 := by
    intro h0
    rw [List.length_eq_zero] at h0
    rw [h0] at hy
    cases hy
  obtain ⟨k, hk⟩ : ∃ k, c.interactions.length = k + 1 := ⟨c.interactions.length - 1, by omega⟩
  rw [hk] at hly
  obtain ⟨lx2, rfl, hlx2⟩ := chain_child_step hpar hfx hly
  have hlx2n : c.chainToRoot c.interactions.length x = some lx2 := by
    rw [hk]
    exact chain_mono c k x lx2 hlx2
  rw [hlx2n] at hlx
  cases hlx
  rw [← hlyd, ← hlxd]
  simp

/-! ### Ancestor membership and the helpers for the traversal proofs -/

/-- `anc` lies on the ancestor chain (self included) of `x`. -/
def inChain (c : Conversation) (anc x : Message) : Prop :=
  anc ∈ ((c.chainToRoot c.interactions.length x).getD [])

instance (c : Conversation) (anc x : Message) : Decidable (inChain c anc x) := by
  unfold inChain
  exact inferInstance

theorem suffix_eq_of_length {α : Type} {l1 l2 L : List α} (h1 : l1 <:+ L) (h2 : l2 <:+ L)
    (hl : l1.length = l2.length) : l1 = l2 := by
  obtain ⟨t1, rfl⟩ := h1
  obtain ⟨t2, ht2⟩ := h2
  have hlen : t1.length = t2.length := by
    have hlen2 := congrArg List.length ht2
    simp only [List.length_append] at hlen2
    omega
  have hdrop := congrArg (List.drop t1.length) ht2
  rw [List.drop_left] at hdrop
  rw [hlen, List.drop_left] at hdrop
  exact hdrop.symm

theorem parentless_unique {c : Conversation}
    (h1 : c.interactions.countP (fun m => m.parent_id.isNone) = 1)
    {x y : Message} (hx : x ∈ c.interactions) (hy : y ∈ c.interactions)
    (hxp : x.parent_id = none) (hyp : y.parent_id = none) : x = y := by
  rw [List.countP_eq_length_filter] at h1
  obtain ⟨u, hu⟩ := List.length_eq_one.mp h1
  have hxf : x ∈ c.interactions.filter (fun m => m.parent_id.isNone) :=
    List.mem_filter.mpr ⟨hx, by rw [hxp]; rfl⟩
  have hyf : y ∈ c.interactions.filter (fun m => m.parent_id.isNone) :=
    List.mem_filter.mpr ⟨hy, by rw [hyp]; rfl⟩
  rw [hu] at hxf hyf
  exact (List.mem_singleton.mp hxf).trans (List.mem_singleton.mp hyf).symm

theorem mem_get_children {c : Conversation} {pid : Nat} {y : Message} :
    y ∈ c.get_children pid ↔ y ∈ c.interactions ∧ y.parent_id = some pid := by
  unfold Conversation.get_children
  rw [mem_sortByIndex, List.mem_filter]
  simp

theorem interactions_nodup {c : Conversation}
    (hn : (c.interactions.map (fun m => m.id)).Nodup) : c.interactions.Nodup :=
  List.Nodup.of_map _ hn

theorem get_children_nodup {c : Conversation} {pid : Nat}
    (hn : (c.interactions.map (fun m => m.id)).Nodup) : (c.get_children pid).Nodup := by
  unfold Conversation.get_children
  exact ((sortByIndex_perm _).nodup_iff).mpr ((interactions_nodup hn).filter _)

theorem inChain_self {c : Conversation} (hv : c.validTree) {a : Message}
    (ha : a ∈ c.interactions) : inChain c a a := by
  obtain ⟨l, hl, _, _, _⟩ := chainDepth_spec hv ha
  obtain ⟨t, rfl⟩ := chain_head hl
  unfold inChain
  rw [hl]
  exact List.mem_cons_self _ _

theorem inChain_suffix {c : Conversation} (hv : c.validTree) {a m : Message}
    (ha : a ∈ c.interactions) (h : inChain c m a) :
    ∃ t la, c.chainToRoot c.interactions.length a = some la ∧
      c.chainToRoot c.interactions.length m = some (m :: t) ∧ (m :: t) <:+ la := by
  obtain ⟨la, hla, _, _, _⟩ := chainDepth_spec hv ha
  unfold inChain at h
  rw [hla] at h
  simp only [Option.getD_some] at h
  rcases List.append_of_mem h with ⟨s, t, rfl⟩
  rcases chain_suffix_head c.interactions.length a (s ++ m :: t) hla m t ⟨s, rfl⟩ with
    ⟨g, hg, hc⟩
  exact ⟨t, s ++ m :: t, hla, chain_mono_le c hg hc, ⟨s, rfl⟩⟩

theorem inChain_root {c : Conversation} (hv : c.validTree) {a r : Message}
    (ha : a ∈ c.interactions) (hr : r ∈ c.interactions) (hrp : r.parent_id = none) :
    inChain c r a := by
  obtain ⟨la, hla, _, _, _⟩ := chainDepth_spec hv ha
  rcases chain_last _ _ _ hla with ⟨r2, hr2last, hr2p⟩
  have hr2mem : r2 ∈ la := List.mem_of_getLast?_eq_some hr2last
  have hr2int : r2 ∈ c.interactions := chain_elems _ _ _ ha hla r2 hr2mem
  have : r = r2 := parentless_unique hv.2.1 hr hr2int hrp hr2p
  unfold inChain
  rw [hla]
  rw [this]
  exact hr2mem

theorem inChain_depth_le {c : Conversation} (hv : c.validTree) {a m : Message}
    (ha : a ∈ c.interactions) (h : inChain c m a) :
    c.chainDepth m ≤ c.chainDepth a := by
  obtain ⟨t, la, hla, hm, hsf⟩ := inChain_suffix hv ha h
  have h1 : (m :: t).length ≤ la.length := hsf.length_le
  have h2 : c.chainDepth m = (m :: t).length := by
    unfold Conversation.chainDepth
    rw [hm]
    rfl
  have h3 : c.chainDepth a = la.length := by
    unfold Conversation.chainDepth
    rw [hla]
    rfl
  omega

theorem inChain_eq_of_depth_ge {c : Conversation} (hv : c.validTree) {a m : Message}
    (ha : a ∈ c.interactions) (h : inChain c m a)
    (hd : c.chainDepth a ≤ c.chainDepth m) : m = a := by
  obtain ⟨t, la, hla, hm, hsf⟩ := inChain_suffix hv ha h
  have h2 : c.chainDepth m = (m :: t).length := by
    unfold Conversation.chainDepth
    rw [hm]
    rfl
  have h3 : c.chainDepth a = la.length := by
    unfold Conversation.chainDepth
    rw [hla]
    rfl
  have h4 : m :: t = la := hsf.sublist.eq_of_length_le (by omega)
  obtain ⟨t2, rfl⟩ := chain_head hla
  have h5 := congrArg List.head? h4
  simpa using h5

theorem child_not_inChain_parent {c : Conversation} (hv : c.validTree) {m y : Message}
    (hm : m ∈ c.interactions) (hy : y ∈ c.interactions)
    (hpar : y.parent_id = some m.id) : ¬ inChain c y m := by
  intro h
  have h1 := inChain_depth_le hv hm h
  have h2 := chainDepth_child hv hm hy hpar
  omega

theorem parent_inChain {c : Conversation} (hv : c.validTree) {a y p : Message} {pid : Nat}
    (ha : a ∈ c.interactions) (h : inChain c y a)
    (hpar : y.parent_id = some pid) (hp : c.findMsg pid = some p) : inChain c p a := by
  obtain ⟨t, la, hla, hm, hsf⟩ := inChain_suffix hv ha h
  have hn : c.interactions.length ≠ 0 := by
    intro h0
    rw [List.length_eq_zero] at h0
    rw [h0] at ha
    cases ha
  obtain ⟨k, hk⟩ : ∃ k, c.interactions.length = k + 1 := ⟨c.interactions.length - 1, by omega⟩
  have hpid : y.parent_id = some p.id := by
    rw [hpar, (findMsg_eq_some hp).2]
  have hfp : c.findMsg p.id = some p := by
    rw [(findMsg_eq_some hp).2]
    exact hp
  rw [hk] at hm
  obtain ⟨lx, heq, hlx⟩ := chain_child_step hpid hfp hm
  have hteq : t = lx := by
    injection heq
  subst hteq
  obtain ⟨t2, rfl⟩ := chain_head hlx
  unfold inChain
  rw [hla]
  have hmem : p ∈ y :: p :: t2 := List.mem_cons_of_mem _ (List.mem_cons_self _ _)
  exact hsf.subset hmem

theorem child_inChain_unique {c : Conversation} (hv : c.validTree) {a x y1 y2 : Message}
    (ha : a ∈ c.interactions) (hx : x ∈ c.interactions)
    (hy1 : y1 ∈ c.interactions) (hy2 : y2 ∈ c.interactions)
    (hp1 : y1.parent_id = some x.id) (hp2 : y2.parent_id = some x.id)
    (h1 : inChain c y1 a) (h2 : inChain c y2 a) : y1 = y2 := by
  obtain ⟨t1, la1, hla1, hm1, hsf1⟩ := inChain_suffix hv ha h1
  obtain ⟨t2, la2, hla2, hm2, hsf2⟩ := inChain_suffix hv ha h2
  rw [hla1] at hla2
  cases hla2
  have hd1 : c.chainDepth y1 = (y1 :: t1).length := by
    unfold Conversation.chainDepth
    rw [hm1]
    rfl
  have hd2 : c.chainDepth y2 = (y2 :: t2).length := by
    unfold Conversation.chainDepth
    rw [hm2]
    rfl
  have hdd1 := chainDepth_child hv hx hy1 hp1
  have hdd2 := chainDepth_child hv hx hy2 hp2
  have hlen : (y1 :: t1).length = (y2 :: t2).length := by omega
  have := suffix_eq_of_length hsf1 hsf2 hlen
  injection this

theorem chain_child_exists {c : Conversation} : ∀ (f : Nat) (a : Message) (la : List Message),
    a ∈ c.interactions → c.chainToRoot f a = some la → ∀ m ∈ la, m ≠ a →
    ∃ y, y ∈ c.interactions ∧ y.parent_id = some m.id ∧ y ∈ la := by
  intro f
  induction f with
  | zero =>
    intro a la ha h m hm hne
    rcases hpar : a.parent_id with _ | pid
    · rw [chain_none hpar] at h; cases h
      rcases List.mem_singleton.mp hm with rfl
      exact absurd rfl hne
    · rw [chain_zero hpar] at h; cases h
  | succ g ih =>
    intro a la ha h m hm hne
    rcases hpar : a.parent_id with _ | pid
    · rw [chain_none hpar] at h; cases h
      rcases List.mem_singleton.mp hm with rfl
      exact absurd rfl hne
    · rcases hp : c.findMsg pid with _ | p
      · rw [chain_dangling hpar hp] at h; cases h
      · rw [chain_succ hpar hp] at h
        rcases hw : c.chainToRoot g p with _ | lp
        · rw [hw] at h; cases h
        · rw [hw] at h; cases h
          rcases List.mem_cons.mp hm with rfl | hm2
          · exact absurd rfl hne
          · by_cases hmp : m = p
            · subst hmp
              refine ⟨a, ha, ?_, List.mem_cons_self _ _⟩
              rw [hpar, (findMsg_eq_some hp).2]
            · rcases ih p lp (findMsg_eq_some hp).1 hw m hm2 hmp with ⟨y, hy1, hy2, hy3⟩
              exact ⟨y, hy1, hy2, List.mem_cons_of_mem _ hy3⟩

theorem inChain_child_exists {c : Conversation} (hv : c.validTree) {a m : Message}
    (ha : a ∈ c.interactions) (h : inChain c m a) (hne : m ≠ a) :
    ∃ y, y ∈ c.interactions ∧ y.parent_id = some m.id ∧ inChain c y a := by
  obtain ⟨la, hla, _, _, _⟩ := chainDepth_spec hv ha
  unfold inChain at h
  rw [hla] at h
  simp only [Option.getD_some] at h
  rcases chain_child_exists _ _ _ ha hla m h hne with ⟨y, hy1, hy2, hy3⟩
  refine ⟨y, hy1, hy2, ?_⟩
  unfold inChain
  rw [hla]
  exact hy3

/-! ### Counting occurrences in the structural pre-order -/

theorem count_flatMap {α β : Type} [DecidableEq β] (g : α → List β) (l : List α) (b : β) :
    (l.flatMap g).count b = (l.map (fun x => (g x).count b)).sum := by
  induction l with
  | nil => simp
  | cons x t ih => simp [List.flatMap_cons, List.count_append, ih]

theorem sum_indicator_unique {L : List Message} {P : Message → Prop}
    [DecidablePred P] {y0 : Message} (hnd : L.Nodup) (hy0 : y0 ∈ L) (hP : P y0)
    (huniq : ∀ y ∈ L, P y → y = y0) :
    (L.map (fun y => if P y then 1 else 0)).sum = 1 := by
  induction L with
  | nil => cases hy0
  | cons x t ih =>
    rcases List.nodup_cons.mp hnd with ⟨hx, hndt⟩
    rcases List.mem_cons.mp hy0 with rfl | hy0t
    · simp only [List.map_cons, List.sum_cons, if_pos hP]
      have hz : (t.map (fun y => if P y then 1 else 0)).sum = 0 := by
        apply List.sum_eq_zero
        intro n hn
        rcases List.mem_map.mp hn with ⟨y, hyt, rfl⟩
        rw [if_neg]
        intro hPy
        exact hx ((huniq y (List.mem_cons_of_mem _ hyt) hPy) ▸ hyt)
      rw [hz]
    · have hxP : ¬ P x := fun hPx =>
        hx ((huniq x (List.mem_cons_self _ _) hPx) ▸ hy0t)
      simp only [List.map_cons, List.sum_cons, if_neg hxP]
      rw [ih hndt hy0t (fun y hy hp => huniq y (List.mem_cons_of_mem _ hy) hp)]

theorem preorder_len_pos (c : Conversation) (f : Nat) (m : Message) :
    0 < (c.preorderFrom f m).length := by
  cases f <;> simp [Conversation.preorderFrom]

theorem preorder_subset {c : Conversation} : ∀ (f : Nat) (m : Message),
    m ∈ c.interactions → ∀ x ∈ c.preorderFrom f m, x ∈ c.interactions := by
  intro f
  induction f with
  | zero =>
    intro m hm x hx
    unfold Conversation.preorderFrom at hx
    rcases List.mem_singleton.mp hx with rfl
    exact hm
  | succ g ih =>
    intro m hm x hx
    unfold Conversation.preorderFrom at hx
    rcases List.mem_cons.mp hx with rfl | hx2
    · exact hm
    · rcases List.mem_flatMap.mp hx2 with ⟨y, hy, hxy⟩
      exact ih y (mem_get_children.mp hy).1 x hxy

theorem preorder_count {c : Conversation} (hv : c.validTree) :
    ∀ (f : Nat) (m : Message), m ∈ c.interactions →
      c.interactions.length ≤ f + c.chainDepth m →
      ∀ a ∈ c.interactions,
        (c.preorderFrom f m).count a = if inChain c m a then 1 else 0 := by
  intro f
  induction f with
  | zero =>
    intro m hm hfd a ha
    unfold Conversation.preorderFrom
    obtain ⟨lm, hlm, hlmd, hlm1, hlmn⟩ := chainDepth_spec hv hm
    by_cases hin : inChain c m a
    · rw [if_pos hin]
      have hma : m = a := by
        apply inChain_eq_of_depth_ge hv ha hin
        obtain ⟨la2, hla2, hla2d, _, hla2n⟩ := chainDepth_spec hv ha
        omega
      rw [hma]
      simp
    · rw [if_neg hin]
      have hma : m ≠ a := fun he => hin (by rw [he]; exact inChain_self hv ha)
      rw [List.count_singleton]
      simp [hma]
  | succ g ih =>
    intro m hm hfd a ha
    unfold Conversation.preorderFrom
    rw [List.count_cons, count_flatMap]
    have hmap : (c.get_children m.id).map (fun y => (c.preorderFrom g y).count a) =
        (c.get_children m.id).map (fun y => if inChain c y a then 1 else 0) := by
      apply List.map_congr_left
      intro y hy
      rcases mem_get_children.mp hy with ⟨hyint, hypar⟩
      have hdepth := chainDepth_child hv hm hyint hypar
      exact ih y hyint (by omega) a ha
    rw [hmap]
    by_cases hin : inChain c m a
    · rw [if_pos hin]
      by_cases hma : m = a
      · subst hma
        have hz : ((c.get_children m.id).map
            (fun y => if inChain c y m then 1 else 0)).sum = 0 := by
          apply List.sum_eq_zero
          intro n hn
          rcases List.mem_map.mp hn with ⟨y, hy, rfl⟩
          rcases mem_get_children.mp hy with ⟨hyint, hypar⟩
          rw [if_neg (child_not_inChain_parent hv hm hyint hypar)]
        rw [hz]
        simp
      · rcases inChain_child_exists hv ha hin hma with ⟨y0, hy0int, hy0par, hy0in⟩
        have hy0mem : y0 ∈ c.get_children m.id := mem_get_children.mpr ⟨hy0int, hy0par⟩
        have hsum : ((c.get_children m.id).map
            (fun y => if inChain c y a then 1 else 0)).sum = 1 := by
          apply sum_indicator_unique (get_children_nodup hv.1) hy0mem hy0in
          intro y hy hyin
          rcases mem_get_children.mp hy with ⟨hyint, hypar⟩
          exact child_inChain_unique hv ha hm hyint hy0int hypar hy0par hyin hy0in
        rw [hsum]
        simp [hma]
    · rw [if_neg hin]
      have hma : m ≠ a := fun he => hin (by rw [he]; exact inChain_self hv ha)
      have hz : ((c.get_children m.id).map
          (fun y => if inChain c y a then 1 else 0)).sum = 0 := by
        apply List.sum_eq_zero
        intro n hn
        rcases List.mem_map.mp hn with ⟨y, hy, rfl⟩
        rcases mem_get_children.mp hy with ⟨hyint, hypar⟩
        rw [if_neg]
        intro hyin
        exact hin (parent_inChain hv ha hyin hypar (findMsg_self hv.1 hm))
      rw [hz]
      simp [hma]

theorem root_spec {c : Conversation} (hv : c.validTree) :
    ∃ r, c.get_root_message? = some r ∧ r ∈ c.interactions ∧ r.parent_id = none := by
  have h1 := hv.2.1
  rw [List.countP_eq_length_filter] at h1
  obtain ⟨u, hu⟩ := List.length_eq_one.mp h1
  have humem : u ∈ c.interactions.filter (fun m => m.parent_id.isNone) := by
    rw [hu]
    exact List.mem_singleton_self u
  rcases List.mem_filter.mp humem with ⟨humem2, hup⟩
  unfold Conversation.get_root_message?
  rcases hf : c.interactions.find? (fun m => m.parent_id.isNone) with _ | r
  · exfalso
    rw [List.find?_eq_none] at hf
    exact hf u humem2 hup
  · refine ⟨r, hf, List.mem_of_find?_eq_some hf, ?_⟩
    have h2 := List.find?_some hf
    simpa [Option.isNone_iff_eq_none] using h2

theorem preorder_perm {c : Conversation} (hv : c.validTree) {r : Message}
    (hr : r ∈ c.interactions) (hrp : r.parent_id = none) :
    (c.preorderFrom c.interactions.length r).Perm c.interactions := by
  rw [List.perm_iff_count]
  intro a
  by_cases ha : a ∈ c.interactions
  · have h1 := preorder_count hv c.interactions.length r hr (by omega) a ha
    rw [h1, if_pos (inChain_root hv ha hr hrp)]
    exact (List.count_eq_one_of_mem (interactions_nodup hv.1) ha).symm
  · rw [List.count_eq_zero.mpr ha,
      List.count_eq_zero.mpr (fun hmem => ha (preorder_subset _ r hr a hmem))]

theorem flatMap_congr {α β : Type} {l : List α} {f g : α → List β}
    (h : ∀ x ∈ l, f x = g x) : l.flatMap f = l.flatMap g := by
  induction l with
  | nil => rfl
  | cons x t ih =>
    simp only [List.flatMap_cons, h x (List.mem_cons_self x t),
      ih (fun y hy => h y (List.mem_cons_of_mem _ hy))]

theorem length_flatMap2 {α β : Type} (l : List α) (f : α → List β) :
    (l.flatMap f).length = (l.map (fun x => (f x).length)).sum := by
  induction l with
  | nil => rfl
  | cons x t ih => simp [List.flatMap_cons, ih]

theorem preorder_stab_succ {c : Conversation} (hv : c.validTree) :
    ∀ (f : Nat) (m : Message), m ∈ c.interactions →
      c.interactions.length ≤ f + c.chainDepth m →
      c.preorderFrom f m = c.preorderFrom (f + 1) m := by
  intro f
  induction f with
  | zero =>
    intro m hm hfd
    have hch : c.get_children m.id = [] := by
      rcases hcc : c.get_children m.id with _ | ⟨y, t⟩
      · rfl
      · exfalso
        have hy : y ∈ c.get_children m.id := by
          rw [hcc]
          exact List.mem_cons_self _ _
        rcases mem_get_children.mp hy with ⟨hyint, hypar⟩
        have hd := chainDepth_child hv hm hyint hypar
        obtain ⟨ly, hly, hlyd, _, hlyn⟩ := chainDepth_spec hv hyint
        obtain ⟨lm, hlm, hlmd, hlm1, hlmn⟩ := chainDepth_spec hv hm
        omega
    unfold Conversation.preorderFrom
    rw [hch]
    rfl
  | succ g ih =>
    intro m hm hfd
    unfold Conversation.preorderFrom
    congr 1
    apply flatMap_congr
    intro y hy
    rcases mem_get_children.mp hy with ⟨hyint, hypar⟩
    have hd := chainDepth_child hv hm hyint hypar
    exact ih y hyint (by omega)

theorem preorder_stab {c : Conversation} (hv : c.validTree) {f g : Nat} {m : Message}
    (hm : m ∈ c.interactions) (hf : c.interactions.length ≤ f + c.chainDepth m)
    (hfg : f ≤ g) : c.preorderFrom f m = c.preorderFrom g m := by
  induction g with
  | zero =>
    have hf0 : f = 0 := by omega
    rw [hf0]
  | succ k ih =>
    rcases Nat.lt_or_ge f (k + 1) with hlt | hge
    · rw [ih (by omega)]
      exact preorder_stab_succ hv k m hm (by omega)
    · have hfk : f = k + 1 := by omega
      rw [hfk]

theorem dfsAux_eq {c : Conversation} (hv : c.validTree) :
    ∀ (f : Nat) (stack : List Message), (∀ x ∈ stack, x ∈ c.interactions) →
      (stack.map (fun x => (c.preorderFrom c.interactions.length x).length)).sum ≤ f →
      c.dfsAux f stack =
        some (stack.flatMap (c.preorderFrom c.interactions.length)) := by
  intro f
  induction f with
  | zero =>
    intro stack hst hsum
    cases stack with
    | nil => rfl
    | cons m rest =>
      exfalso
      have h1 := preorder_len_pos c c.interactions.length m
      simp only [List.map_cons, List.sum_cons] at hsum
      omega
  | succ g ih =>
    intro stack hst hsum
    cases stack with
    | nil => rfl
    | cons m rest =>
      have hm : m ∈ c.interactions := hst m (List.mem_cons_self _ _)
      have hn1 : 1 ≤ c.interactions.length := by
        have : c.interactions ≠ [] := by
          intro h0
          rw [h0] at hm
          cases hm
        have := List.length_pos.mpr this
        omega
      obtain ⟨k, hk⟩ : ∃ k, c.interactions.length = k + 1 :=
        ⟨c.interactions.length - 1, by omega⟩
      obtain ⟨lm2, hlm2, hlmd2, hlm12, hlmn2⟩ := chainDepth_spec hv hm
      have hpre : c.preorderFrom c.interactions.length m =
          m :: (c.get_children m.id).flatMap (c.preorderFrom c.interactions.length) := by
        conv_lhs => rw [hk]
        unfold Conversation.preorderFrom
        congr 1
        apply flatMap_congr
        intro y hy
        rcases mem_get_children.mp hy with ⟨hyint, hypar⟩
        have hd := chainDepth_child hv hm hyint hypar
        exact preorder_stab hv hyint (by omega) (by omega)
      have hlen : (c.preorderFrom c.interactions.length m).length =
          1 + ((c.get_children m.id).map
            (fun x => (c.preorderFrom c.interactions.length x).length)).sum := by
        rw [hpre, List.length_cons, length_flatMap2]
        omega
      have hsub : ∀ x ∈ c.get_children m.id ++ rest, x ∈ c.interactions := by
        intro x hx
        rcases List.mem_append.mp hx with h1 | h1
        · exact (mem_get_children.mp h1).1
        · exact hst x (List.mem_cons_of_mem _ h1)
      have hsum2 : ((c.get_children m.id ++ rest).map
          (fun x => (c.preorderFrom c.interactions.length x).length)).sum ≤ g := by
        simp only [List.map_cons, List.sum_cons] at hsum
        simp only [List.map_append, List.sum_append]
        omega
      show (c.dfsAux g (c.get_children m.id ++ rest)).map (fun l => m :: l) =
        some ((m :: rest).flatMap (c.preorderFrom c.interactions.length))
      rw [ih (c.get_children m.id ++ rest) hsub hsum2]
      rw [List.flatMap_cons, hpre, List.flatMap_append]
      rfl

/-! ### Claim C7: the depth-first iterator -/

/-- C7: on every valid tree the stack-based depth-first iterator, run to
completion, yields exactly the structural pre-order traversal from the root
(each node before its descendants, children in ascending sibling-index
order, each child's subtree exhausted before the next sibling), and that
sequence is a permutation of the stored messages (each yielded exactly
once).  The scenario-E tree yields [root, Q1, A1, A2, Q2, A3, Q3, Q4]. -/
theorem iter_preorder :
    (∀ c : Conversation, c.validTree →
      ∃ r, c.get_root_message? = some r ∧ r ∈ c.interactions ∧ r.parent_id = none ∧
        c.iterList = some (c.preorderFrom c.interactions.length r) ∧
        (c.preorderFrom c.interactions.length r).Perm c.interactions) ∧
    (scenarioE.map (fun conv => conv.iterList.map (fun l => l.map (fun m => m.content))) =
      some (some ["root", "Q1", "A1", "A2", "Q2", "A3", "Q3", "Q4"])) := by
  constructor
  · intro c hv
    obtain ⟨r, hrf, hrmem, hrp⟩ := root_spec hv
    have hperm := preorder_perm hv hrmem hrp
    have hlen := hperm.length_eq
    refine ⟨r, hrf, hrmem, hrp, ?_, hperm⟩
    unfold Conversation.iterList
    simp only [hrf]
    have hdfs := dfsAux_eq hv c.interactions.length [r]
      (by
        intro x hx
        rcases List.mem_singleton.mp hx with rfl
        exact hrmem)
      (by
        simp only [List.map_cons, List.map_nil, List.sum_cons, List.sum_nil]
        omega)
    rw [hdfs]
    simp
  · decide

/-- Witness for C7 on the concrete valid tree `convQ`. -/
theorem iter_preorder_witness :
    ∃ r, convQ.get_root_message? = some r ∧ r ∈ convQ.interactions ∧ r.parent_id = none ∧
      convQ.iterList = some (convQ.preorderFrom convQ.interactions.length r) ∧
      (convQ.preorderFrom convQ.interactions.length r).Perm convQ.interactions :=
  iter_preorder.1 convQ (by decide)

/-! ### Claim C6: the anchored conversation view -/

theorem descend_lowest {c : Conversation} (hv : c.validTree) :
    ∀ (f : Nat) (x : Message), x ∈ c.interactions →
      c.interactions.length < f + c.chainDepth x →
      ∃ D, c.descend f x.id = some D ∧ LowestPath c x.id D := by
  intro f
  induction f with
  | zero =>
    intro x hx hfd
    exfalso
    obtain ⟨l, hl, hld, _, hln⟩ := chainDepth_spec hv hx
    omega
  | succ g ih =>
    intro x hx hfd
    rcases hch : c.get_children x.id with _ | ⟨y, t⟩
    · refine ⟨[], ?_, LowestPath.nil _ ?_⟩
      · unfold Conversation.descend
        rw [hch]
      · intro m hm hpm
        have hmc : m ∈ c.get_children x.id := mem_get_children.mpr ⟨hm, hpm⟩
        rw [hch] at hmc
        cases hmc
    · have hy : y ∈ c.get_children x.id := by
        rw [hch]
        exact List.mem_cons_self _ _
      rcases mem_get_children.mp hy with ⟨hyint, hypar⟩
      have hd := chainDepth_child hv hx hyint hypar
      rcases ih y hyint (by omega) with ⟨D, hD, hLP⟩
      refine ⟨y :: D, ?_, ?_⟩
      · unfold Conversation.descend
        rw [hch]
        show (c.descend g y.id).map (fun l => y :: l) = some (y :: D)
        rw [hD]
        rfl
      · refine LowestPath.cons _ y D hyint hypar ?_ hLP
        intro z hz hpz
        have hch2 : sortByIndex (c.interactions.filter
            (fun m => m.parent_id == some x.id)) = y :: t := hch
        rcases sortByIndex_head_min hch2 with ⟨_, hmin⟩
        apply hmin
        exact List.mem_filter.mpr ⟨hz, by simp [hpz]⟩

theorem chainLinked_cons_of : ∀ (D : List Message) (a : Message),
    linkedFrom a.id D → chainLinked (a :: D) := by
  intro D
  induction D with
  | nil => intro a h; trivial
  | cons d T ih =>
    intro a h
    obtain ⟨hd, hrest⟩ := h
    exact ⟨hd, ih d hrest⟩

theorem linked_snoc : ∀ (L : List Message) (p y : Message), chainLinked L →
    L.getLast? = some p → y.parent_id = some p.id → chainLinked (L ++ [y]) := by
  intro L
  induction L with
  | nil =>
    intro p y h1 h2 h3
    cases h2
  | cons x T ih =>
    intro p y h1 h2 h3
    cases T with
    | nil =>
      have hpx : p = x := by simpa using h2.symm
      subst hpx
      exact ⟨h3, trivial⟩
    | cons x2 T2 =>
      obtain ⟨h1a, h1b⟩ := h1
      have h2b : (x2 :: T2).getLast? = some p := by
        rwa [List.getLast?_cons_cons] at h2
      exact ⟨h1a, ih p y h1b h2b h3⟩

theorem chain_linked_reverse {c : Conversation} : ∀ (f : Nat) (m : Message) (l : List Message),
    c.chainToRoot f m = some l → chainLinked l.reverse := by
  intro f
  induction f with
  | zero =>
    intro m l h
    rcases hpar : m.parent_id with _ | pid
    · rw [chain_none hpar] at h; cases h
      trivial
    · rw [chain_zero hpar] at h; cases h
  | succ g ih =>
    intro m l h
    rcases hpar : m.parent_id with _ | pid
    · rw [chain_none hpar] at h; cases h
      trivial
    · rcases hp : c.findMsg pid with _ | p
      · rw [chain_dangling hpar hp] at h; cases h
      · rw [chain_succ hpar hp] at h
        rcases hw : c.chainToRoot g p with _ | lp
        · rw [hw] at h; cases h
        · rw [hw] at h; cases h
          rw [List.reverse_cons]
          obtain ⟨t, rfl⟩ := chain_head hw
          refine linked_snoc _ p m (ih p (p :: t) hw) ?_ ?_
          · rw [List.getLast?_reverse]
            rfl
          · rw [hpar, (findMsg_eq_some hp).2]

theorem linked_append : ∀ (A : List Message) (m : Message) (D : List Message),
    chainLinked A → A.getLast? = some m → linkedFrom m.id D → chainLinked (A ++ D) := by
  intro A
  induction A with
  | nil =>
    intro m D h1 h2 h3
    cases h2
  | cons x T ih =>
    intro m D h1 h2 h3
    cases T with
    | nil =>
      have hmx : m = x := by simpa using h2.symm
      subst hmx
      exact chainLinked_cons_of D m h3
    | cons x2 T2 =>
      obtain ⟨h1a, h1b⟩ := h1
      have h2b : (x2 :: T2).getLast? = some m := by
        rwa [List.getLast?_cons_cons] at h2
      exact ⟨h1a, ih m D h1b h2b h3⟩

theorem lowestPath_linkedFrom {c : Conversation} {id : Nat} {D : List Message}
    (h : LowestPath c id D) : linkedFrom id D := by
  induction h with
  | nil i _ => trivial
  | cons i m rest hmem hpar hmin hrest ih => exact ⟨hpar, ih⟩

/-- C6: on a valid tree, the anchored message list is a root-to-leaf tree
path: it is the reversed ancestor chain of the anchor (root first, anchor
last) followed by the continuation that always takes a stored child with the
lowest sibling index down to a childless message, with consecutive elements
parent-then-child throughout; an absent anchor yields
`MessageNotPartOfConversation`. -/
theorem get_message_list_path (c : Conversation) (hv : c.validTree) (anchor : Nat) :
    (c.findMsg anchor = none →
      c.get_message_list (some anchor) =
        some (.error RustGPTError.MessageNotPartOfConversation)) ∧
    (∀ m, c.findMsg anchor = some m →
      ∃ A D, c.get_message_list (some anchor) = some (.ok (A ++ D)) ∧
        (∃ r, A.head? = some r ∧ r.parent_id = none ∧ r ∈ c.interactions) ∧
        A.getLast? = some m ∧ chainLinked (A ++ D) ∧ LowestPath c m.id D) := by
  constructor
  · intro h
    unfold Conversation.get_message_list
    simp only [h]
  · intro m hm
    have hmem := (findMsg_eq_some hm).1
    obtain ⟨l, hl, hld, hl1, hln⟩ := chainDepth_spec hv hmem
    obtain ⟨D, hD, hLP⟩ := descend_lowest hv c.interactions.length m hmem (by omega)
    refine ⟨l.reverse, D, ?_, ?_, ?_, ?_, hLP⟩
    · unfold Conversation.get_message_list
      simp only [hm, hl, hD]
      rfl
    · rcases chain_last _ _ _ hl with ⟨r, hr1, hr2⟩
      refine ⟨r, ?_, hr2, chain_elems _ _ _ hmem hl r (List.mem_of_getLast?_eq_some hr1)⟩
      rw [List.head?_reverse]
      exact hr1
    · rw [List.getLast?_reverse]
      obtain ⟨t, rfl⟩ := chain_head hl
      rfl
    · have hA := chain_linked_reverse _ _ _ hl
      have hAlast : l.reverse.getLast? = some m := by
        rw [List.getLast?_reverse]
        obtain ⟨t, rfl⟩ := chain_head hl
        rfl
      exact linked_append l.reverse m D hA hAlast (lowestPath_linkedFrom hLP)

/-- Witness for C6 on the concrete valid tree `convQ`, anchored at the root. -/
theorem get_message_list_path_witness :
    ∃ A D, convQ.get_message_list (some 1) = some (.ok (A ++ D)) ∧
      (∃ r, A.head? = some r ∧ r.parent_id = none ∧ r ∈ convQ.interactions) ∧
      A.getLast? = some rootMsg ∧ chainLinked (A ++ D) ∧ LowestPath convQ rootMsg.id D :=
  (get_message_list_path convQ (by decide) 1).2 rootMsg (by decide)
